import Mathlib

/-!
Shallow embedding of the YOLOv8-Seg tensorflow.js post-processing pipeline
of this repository: `src/utils/detect.js` (main variant) and the second
pipeline variant.  Pixel values, box coordinates and scores are modelled as
rationals; tensors become lists or index functions.  Library element-wise
operations (`pad`, `slice`, `where`, bilinear resize) are embedded by their
documented per-element semantics; the library greedy non-max-suppression,
which is not part of this repository, is modelled from the spec.
-/

namespace YoloSeg

/-- JavaScript `Math.round` on an exact rational: round half toward positive
infinity, i.e. `⌊q + 1/2⌋`. -/
def jround (q : ℚ) : ℤ := ⌊q + 1 / 2⌋

/-- A row of the transposed detection tensor `transRes`: 4 box columns
(cx, cy, w, h), then `numClass` score columns, then the mask-coefficient
columns. -/
abbrev DetRow := List ℚ

/-- Column slice of a row: elements of columns `[start, start + len)`,
the per-row effect of `transRes.slice([0, start], [-1, len])`. -/
def sliceCols (row : DetRow) (start len : Nat) : List ℚ :=
  (row.drop start).take len

/-- A corner-coordinate box `[y1, x1, y2, x2]`. -/
structure Box where
  y1 : ℚ
  x1 : ℚ
  y2 : ℚ
  x2 : ℚ
deriving DecidableEq

/-- Box decoding of `detect.js` lines 61-77: columns 0-3 of a row are
(cx, cy, w, h); `x1 = cx - w/2`, `y1 = cy - h/2`, then the concatenated box
is `[y1, x1, y1 + h, x1 + w]`. -/
def decodeBox (row : DetRow) : Box :=
  let cx := row.getD 0 0
  let cy := row.getD 1 0
  let w := row.getD 2 0
  let h := row.getD 3 0
  let x1 := cx - w / 2
  let y1 := cy - h / 2
  { y1 := y1, x1 := x1, y2 := y1 + h, x2 := x1 + w }

/-- Re-encoding of decoded corners back to center format, as in the claim:
`cx = (x1+x2)/2`, `cy = (y1+y2)/2`, `w = x2-x1`, `h = y2-y1`. -/
def encodeBox (b : Box) : ℚ × ℚ × ℚ × ℚ :=
  ((b.x1 + b.x2) / 2, (b.y1 + b.y2) / 2, b.x2 - b.x1, b.y2 - b.y1)

/-- Maximum of a score list, the per-row effect of `rawScores.max(1)`. -/
def listMax : List ℚ → ℚ
  | [] => 0
  | a :: rest => rest.foldl max a

/-- Helper for `listArgMax`: scan the remaining scores, keeping the first
index attaining the running maximum (strict improvement updates). -/
def argMaxGo : List ℚ → Nat → Nat → ℚ → Nat
  | [], _, best, _ => best
  | v :: rest, cur, best, bestV =>
      if bestV < v then argMaxGo rest (cur + 1) cur v
      else argMaxGo rest (cur + 1) best bestV

/-- Index of the first maximal element, the per-row effect of
`rawScores.argMax(1)`. -/
def listArgMax : List ℚ → Nat
  | [] => 0
  | v :: rest => argMaxGo rest 1 0 v

/-- Per-row score: maximum over the class columns `4 .. 4 + numClass`. -/
def rowScore (numClass : Nat) (row : DetRow) : ℚ :=
  listMax (sliceCols row 4 numClass)

/-- Per-row class index: argmax over the class columns. -/
def rowClass (numClass : Nat) (row : DetRow) : Nat :=
  listArgMax (sliceCols row 4 numClass)

/-- Per-row mask coefficients: columns
`[4 + numClass, 4 + numClass + modelSegChannel)` of the transposed tensor. -/
def maskCoefs (numClass segChannel : Nat) (row : DetRow) : List ℚ :=
  sliceCols row (4 + numClass) segChannel

/-- `xs.gather(idx, 0)`: pick the rows of `xs` named by `idx`, in the order
of `idx` (out-of-range indices read the default `d`). -/
def gather {α : Type} (xs : List α) (d : α) (idx : List Nat) : List α :=
  idx.map fun i => xs.getD i d

/-- All decoded boxes of the transposed detection tensor. -/
def boxesOf (tr : List DetRow) : List Box := tr.map decodeBox

/-- All per-row scores. -/
def scoresOf (nc : Nat) (tr : List DetRow) : List ℚ := tr.map (rowScore nc)

/-- All per-row class indices. -/
def classesOf (nc : Nat) (tr : List DetRow) : List Nat := tr.map (rowClass nc)

/-- All per-row mask-coefficient vectors. -/
def coefsOf (nc sc : Nat) (tr : List DetRow) : List (List ℚ) :=
  tr.map (maskCoefs nc sc)

/-- `downSampleBox` of detect.js lines 111-116: the decoded box scaled from
the model input resolution to the prototype resolution, with floored start
coordinates and rounded sizes. -/
def downSampleBox (b : Box) (segH segW mh mw : Nat) : ℤ × ℤ × ℤ × ℤ :=
  (⌊b.y1 * segH / mh⌋, ⌊b.x1 * segW / mw⌋,
   jround ((b.y2 - b.y1) * segH / mh), jround ((b.x2 - b.x1) * segW / mw))

/-- The slice start/size clamping of detect.js lines 124-142: a negative
start is clamped to 0; a size is kept when start + size fits within the
prototype bound, else replaced by bound - start. -/
def clipSlice (dy dx dh dw : ℤ) (segH segW : Nat) : ℤ × ℤ × ℤ × ℤ :=
  (if 0 ≤ dy then dy else 0,
   if 0 ≤ dx then dx else 0,
   if dy + dh ≤ (segH : ℤ) then dh else (segH : ℤ) - dy,
   if dx + dw ≤ (segW : ℤ) then dw else (segW : ℤ) - dx)

/-- `upSampleBox` of detect.js lines 117-122: the decoded box mapped to draw
space by the preprocessing scale factors, floored starts and rounded sizes;
this is the `box` stored in each Detection record. -/
def upSampleBox (b : Box) (rx ry : ℚ) : ℤ × ℤ × ℤ × ℤ :=
  (⌊b.y1 * ry⌋, ⌊b.x1 * rx⌋, jround ((b.y2 - b.y1) * ry), jround ((b.x2 - b.x1) * rx))

/-- A pixel raster: `pix y x c` is channel `c` of the pixel at row `y`,
column `x`. -/
structure Img where
  height : Nat
  width : Nat
  pix : Nat → Nat → Nat → ℚ

/-- `img.pad [[0, maxSize - h], [0, maxSize - w], [0, 0]]` of detect.js
lines 24-28: zero padding on the bottom and right only, making the frame a
square of side `max(w, h)`. -/
def padToSquare (img : Img) : Img :=
  let maxSize := max img.width img.height
  ⟨maxSize, maxSize, fun y x c =>
    if y < img.height ∧ x < img.width then img.pix y x c else 0⟩

/-- Element-wise semantics of `tf.image.resizeBilinear` (align-corners and
half-pixel-centers off): output pixel (i, j) samples the source at the
fractional position (i·H/newH, j·W/newW), interpolating the four surrounding
source pixels, the lower neighbour clamped to the last row/column.  The size
argument order is `[newHeight, newWidth]`. -/
def resizeBilinear (img : Img) (newH newW : Nat) : Img :=
  ⟨newH, newW, fun i j c =>
    let sy : ℚ := i * img.height / newH
    let sx : ℚ := j * img.width / newW
    let y0 : Nat := (⌊sy⌋).toNat
    let yb : Nat := min (⌈sy⌉).toNat (img.height - 1)
    let x0 : Nat := (⌊sx⌋).toNat
    let xb : Nat := min (⌈sx⌉).toNat (img.width - 1)
    let dy : ℚ := sy - y0
    let dx : ℚ := sx - x0
    img.pix y0 x0 c * (1 - dy) * (1 - dx) + img.pix y0 xb c * (1 - dy) * dx +
      img.pix yb x0 c * dy * (1 - dx) + img.pix yb xb c * dy * dx⟩

/-- A rank-4 tensor with an explicit shape and an indexing function. -/
structure Tensor4 where
  n : Nat
  h : Nat
  w : Nat
  c : Nat
  val : Nat → Nat → Nat → Nat → ℚ

/-- `preprocess` of detect.js lines 15-40: pad the frame to a square of side
`max(w, h)` (bottom/right only), bilinearly resize it with size argument
`[modelWidth, modelHeight]`, divide by 255 and add a leading batch axis;
returns the tensor together with the scale factors `maxSize / w` and
`maxSize / h`. -/
def preprocess (img : Img) (modelWidth modelHeight : Nat) : Tensor4 × ℚ × ℚ :=
  let maxSize : Nat := max img.width img.height
  let rx : ℚ := (maxSize : ℚ) / img.width
  let ry : ℚ := (maxSize : ℚ) / img.height
  let resized := resizeBilinear (padToSquare img) modelWidth modelHeight
  (⟨1, resized.height, resized.width, 3, fun _ y x ch => resized.pix y x ch / 255⟩,
   rx, ry)

/-- Modelled from the spec: the call `tf.image.nonMaxSuppressionAsync(boxes,
scores, 500, 0.45, 0.2)` delegates to the numerical library, whose code is
not part of this repository.  Per the spec it is standard greedy NMS: sort
candidates by score descending, drop candidates at or below the score
threshold, suppress a candidate whose IoU with a higher-scoring kept box
exceeds the IoU threshold, cap the output.  A candidate of that algorithm:
its original row index, box and score. -/
structure Cand where
  idx : Nat
  box : Box
  score : ℚ
deriving DecidableEq

/-- Area of a corner box. -/
def boxArea (b : Box) : ℚ := (b.y2 - b.y1) * (b.x2 - b.x1)

/-- Intersection-over-union of two corner boxes (0 when the union is not
positive). -/
def iou (a b : Box) : ℚ :=
  let inter := max 0 (min a.y2 b.y2 - max a.y1 b.y1)
      * max 0 (min a.x2 b.x2 - max a.x1 b.x1)
  let uni := boxArea a + boxArea b - inter
  if uni ≤ 0 then 0 else inter / uni

/-- Insert a candidate into a score-descending list, keeping the order. -/
def insertDesc (c : Cand) : List Cand → List Cand
  | [] => [c]
  | d :: ds => if d.score ≤ c.score then c :: d :: ds else d :: insertDesc c ds

/-- Sort candidates by score, highest first. -/
def sortDesc (l : List Cand) : List Cand := l.foldr insertDesc []

/-- Greedy selection: walk the score-sorted candidates, keep one exactly when
its IoU with every kept candidate is at most the threshold, and stop once the
remaining budget is exhausted. -/
def nmsSelect (iouThr : ℚ) : Nat → List Cand → List Cand → List Cand
  | _, _, [] => []
  | 0, _, _ :: _ => []
  | budget + 1, kept, c :: rest =>
      if ∀ k ∈ kept, iou k.box c.box ≤ iouThr then
        c :: nmsSelect iouThr budget (c :: kept) rest
      else nmsSelect iouThr (budget + 1) kept rest

/-- The candidate list: one candidate per detection row index. -/
def candsOf (boxes : List Box) (scores : List ℚ) : List Cand :=
  (List.range (min boxes.length scores.length)).map fun i =>
    ⟨i, boxes.getD i ⟨0, 0, 0, 0⟩, scores.getD i 0⟩

/-- Modelled from the spec: greedy NMS over the candidate boxes and scores,
returning the kept candidates in selection order. -/
def nmsCands (boxes : List Box) (scores : List ℚ) (maxOut : Nat)
    (iouThr scoreThr : ℚ) : List Cand :=
  nmsSelect iouThr maxOut []
    (sortDesc ((candsOf boxes scores).filter fun c => decide (scoreThr < c.score)))

/-- Modelled from the spec: the ordered list of surviving row indices
produced by the NMS step. -/
def nonMaxSuppression (boxes : List Box) (scores : List ℚ) (maxOut : Nat)
    (iouThr scoreThr : ℚ) : List Nat :=
  (nmsCands boxes scores maxOut iouThr scoreThr).map Cand.idx

/-- RGBA channel access for a color with a given alpha: channels 0-2 are the
color components, channel 3 the alpha. -/
def colorRGBA (r g b alpha : ℚ) : Nat → ℚ
  | 0 => r
  | 1 => g
  | 2 => b
  | 3 => alpha
  | _ => 0

/-- `padded.less(0.5)` of detect.js line 150: the boolean mask used to index
the overlay. -/
def maskCell (padded : ℚ) : Bool := decide (padded < 1 / 2)

/-- `overlay.where(mask, rgba)` of detect.js line 153, per cell: keep the
overlay value where the mask is true, else write the RGBA value. -/
def overlayWhere (overlayVal : ℚ) (m : Bool) (rgbaVal : ℚ) : ℚ :=
  if m then overlayVal else rgbaVal

/-- Per-cell overlay compositing of the main pipeline, detect.js lines
144-156: a cell whose padded soft-mask value is below 0.5 keeps the previous
overlay value; a cell at or above 0.5 is overwritten with the RGBA value. -/
def compositeMain (overlayVal padded rgbaVal : ℚ) : ℚ :=
  overlayWhere overlayVal (maskCell padded) rgbaVal

/-- Per-cell mask of the second pipeline variant:
`tf.where(upsampleProtos.greaterEqual(0.5), [255, 255, 255, 150], [0, 0, 0, 0])`. -/
def maskedCellVar (proto : ℚ) (c : Nat) : ℚ :=
  if 1 / 2 ≤ proto then colorRGBA 255 255 255 150 c else 0

/-- `addWeighted` of the second pipeline variant: combine `a*alpha + b*beta`
element-wise, then clamp values above 255 down to 255. -/
def addWeighted (a b alpha beta : ℚ) : ℚ :=
  let combine := a * alpha + b * beta
  if combine ≤ 255 then combine else 255

/-- The compositing rule exactly as the specification words it:
`overlay = clamp(overlay*1 + newMask*1, 0..255)`. -/
def specClampAdd (overlayVal newVal : ℚ) : ℚ :=
  max 0 (min (overlayVal * 1 + newVal * 1) 255)

/-- The overlay pixel buffer `[modelHeight, modelWidth, 4]` as an indexing
function (row, column, channel). -/
abbrev Overlay := Nat → Nat → Nat → ℚ

/-- `tf.zeros([modelHeight, modelWidth, 4])`: the initial, fully transparent
overlay. -/
def zerosOverlay : Overlay := fun _ _ _ => 0

/-- A Detection record pushed into `toDraw`: box in draw space, raw score,
class index. -/
structure DetRecord where
  box : ℤ × ℤ × ℤ × ℤ
  score : ℚ
  klass : Nat
deriving DecidableEq

/-- Static shape data of the loaded model: input resolution, prototype
resolution and channel count, and the class count. -/
structure ModelCfg where
  modelWidth : Nat
  modelHeight : Nat
  segH : Nat
  segW : Nat
  segC : Nat
  nc : Nat

/-- Soft-mask value at prototype cell (y, x): the matrix product of a row's
mask coefficients with the prototype stack,
`mask.matMul(transSegMask.reshape([modelSegChannel, -1]))` per cell. -/
def maskValue (coefs : List ℚ) (proto : Nat → Nat → Nat → ℚ) (y x : Nat) : ℚ :=
  (List.range coefs.length).foldl (fun acc k => acc + coefs.getD k 0 * proto k y x) 0

/-- One iteration of the detection loop of detect.js lines 106-167 for a
gathered row (box, score, class, mask coefficients): slice the row's soft
mask at the clamped downsampled region, bilinearly upsample it to the record
box, zero-pad it to the canvas at the box offset, threshold at 0.5 and write
the class RGBA color where the mask fires; also build the row's Detection
record. -/
def detStep (cfg : ModelCfg) (proto : Nat → Nat → Nat → ℚ) (rx ry : ℚ)
    (color : Nat → ℚ) (row : Box × ℚ × Nat × List ℚ) (ov : Overlay) :
    Overlay × DetRecord :=
  let b := row.1
  let d := downSampleBox b cfg.segH cfg.segW cfg.modelHeight cfg.modelWidth
  let s := clipSlice d.1 d.2.1 d.2.2.1 d.2.2.2 cfg.segH cfg.segW
  let u := upSampleBox b rx ry
  let slicedProto : Img := ⟨(s.2.2.1).toNat, (s.2.2.2).toNat, fun y x _ =>
    maskValue row.2.2.2 proto (y + (s.1).toNat) (x + (s.2.1).toNat)⟩
  let upProto := resizeBilinear slicedProto (u.2.2.1).toNat (u.2.2.2).toNat
  let padded : Nat → Nat → ℚ := fun y x =>
    if u.1 ≤ (y : ℤ) ∧ (y : ℤ) < u.1 + u.2.2.1 ∧
        u.2.1 ≤ (x : ℤ) ∧ (x : ℤ) < u.2.1 + u.2.2.2
    then upProto.pix (y - (u.1).toNat) (x - (u.2.1).toNat) 0 else 0
  (fun y x c => compositeMain (ov y x c) (padded y x) (color c),
   ⟨u, row.2.1, row.2.2.1⟩)

/-- The rows of `detReady` together with the gathered mask coefficients, one
per NMS index, in NMS order. -/
def gatheredRows (tr : List DetRow) (nc sc : Nat) (idx : List Nat) :
    List (Box × ℚ × Nat × List ℚ) :=
  idx.map fun i =>
    (decodeBox (tr.getD i []), rowScore nc (tr.getD i []),
     rowClass nc (tr.getD i []), maskCoefs nc sc (tr.getD i []))

/-- The detection loop of detect.js lines 103-167: starting from the zero
overlay and an empty draw list, fold `detStep` over the gathered rows. -/
def detectLoop (cfg : ModelCfg) (proto : Nat → Nat → Nat → ℚ) (rx ry : ℚ)
    (color : Nat → Nat → ℚ) (rows : List (Box × ℚ × Nat × List ℚ)) :
    Overlay × List DetRecord :=
  rows.foldl
    (fun st row =>
      let r := detStep cfg proto rx ry (color row.2.2.1) row st.1
      (r.1, st.2 ++ [r.2]))
    (zerosOverlay, [])

/-- What the video driver reads from the source on one animation tick. -/
structure VideoObs where
  videoWidth : Nat
  hasSrcObject : Bool
deriving DecidableEq

/-- The stop condition of `detectVideo`:
`vidSource.videoWidth === 0 && vidSource.srcObject === null`. -/
def stopCond (o : VideoObs) : Bool := o.videoWidth == 0 && !o.hasSrcObject

/-- Observable action of one driver tick. -/
inductive TickAct where
  | clearCanvas
  | detectCycle
deriving DecidableEq

/-- The `detect` loop of `detectVideo` (detect.js lines 192-209): on each
tick, if the stop condition holds, clear the canvas once and halt (no
further tick is scheduled); otherwise run one full detect-and-render cycle,
whose completion callback schedules the next tick.  The input list is the
sequence of source observations the successive ticks read. -/
def driverRun : List VideoObs → List TickAct
  | [] => []
  | o :: rest =>
      if stopCond o then [TickAct.clearCanvas]
      else TickAct.detectCycle :: driverRun rest

/-- `preprocess` of the second pipeline variant (lines 14-39 of the variant
file), textually identical to the main one. -/
def preprocessVar (img : Img) (modelWidth modelHeight : Nat) : Tensor4 × ℚ × ℚ :=
  let maxSize : Nat := max img.width img.height
  let rx : ℚ := (maxSize : ℚ) / img.width
  let ry : ℚ := (maxSize : ℚ) / img.height
  let resized := resizeBilinear (padToSquare img) modelWidth modelHeight
  (⟨1, resized.height, resized.width, 3, fun _ y x ch => resized.pix y x ch / 255⟩,
   rx, ry)

/-- Box decoding of the second pipeline variant (lines 60-76), the same
formulas as the main one. -/
def decodeBoxVar (row : DetRow) : Box :=
  let cx := row.getD 0 0
  let cy := row.getD 1 0
  let w := row.getD 2 0
  let h := row.getD 3 0
  let x1 := cx - w / 2
  let y1 := cy - h / 2
  { y1 := y1, x1 := x1, y2 := y1 + h, x2 := x1 + w }

/-- Per-row score of the second pipeline variant (lines 78-81). -/
def rowScoreVar (numClass : Nat) (row : DetRow) : ℚ :=
  listMax (sliceCols row 4 numClass)

/-- Per-row class index of the second pipeline variant (lines 78-81). -/
def rowClassVar (numClass : Nat) (row : DetRow) : Nat :=
  listArgMax (sliceCols row 4 numClass)

/-- Mask-coefficient columns of the second pipeline variant (line 82):
`transRes.slice([0, 4 + numClass], [-1, modelSegChannel])`. -/
def maskCoefsVar (numClass segChannel : Nat) (row : DetRow) : List ℚ :=
  sliceCols row (4 + numClass) segChannel

theorem getD_map {α β : Type} (f : α → β) (l : List α) (j : Nat) (d : β)
    (e : α) (hj : j < l.length) : (l.map f).getD j d = f (l.getD j e) := by
  induction l generalizing j with
  | nil => simp at hj
  | cons a t ih =>
    cases j with
    | zero => simp
    | succ k =>
      simp only [List.map_cons, List.getD_cons_succ]
      exact ih k (by simpa using hj)

theorem foldl_max_mem (l : List ℚ) (a : ℚ) :
    l.foldl max a = a ∨ l.foldl max a ∈ l := by
  induction l generalizing a with
  | nil => left; rfl
  | cons b t ih =>
    simp only [List.foldl_cons]
    rcases ih (max a b) with h | h
    · rcases max_choice a b with hm | hm
      · left; rw [h, hm]
      · right; rw [h, hm]; exact List.mem_cons_self b t
    · right; exact List.mem_cons_of_mem b h

theorem le_foldl_max (l : List ℚ) (a : ℚ) :
    a ≤ l.foldl max a ∧ ∀ v ∈ l, v ≤ l.foldl max a := by
  induction l generalizing a with
  | nil => exact ⟨le_refl a, by simp⟩
  | cons b t ih =>
    obtain ⟨h1, h2⟩ := ih (max a b)
    simp only [List.foldl_cons]
    refine ⟨le_trans (le_max_left a b) h1, ?_⟩
    intro v hv
    rcases List.mem_cons.mp hv with hv | hv
    · rw [hv]; exact le_trans (le_max_right a b) h1
    · exact h2 v hv

theorem listMax_mem (l : List ℚ) (h : l ≠ []) : listMax l ∈ l := by
  cases l with
  | nil => exact absurd rfl h
  | cons a t =>
    rcases foldl_max_mem t a with h1 | h1
    · rw [listMax, h1]; exact List.mem_cons_self a t
    · rw [listMax]; exact List.mem_cons_of_mem a h1

theorem le_listMax (l : List ℚ) (v : ℚ) (hv : v ∈ l) : v ≤ listMax l := by
  cases l with
  | nil => simp at hv
  | cons a t =>
    rcases List.mem_cons.mp hv with h | h
    · exact h ▸ (le_foldl_max t a).1
    · exact (le_foldl_max t a).2 v h

/-- C3: decoding a row's (cx, cy, w, h) columns gives
`y1 = cy - h/2`, `x1 = cx - w/2`, `y2 = y1 + h`, `x2 = x1 + w`; re-encoding
the decoded corners recovers (cx, cy, w, h) exactly, and every corner box is
reached (the decode is a bijection on box coordinates).  The per-row score
is the raw maximum of the class columns — one of the raw entries, with no
normalization applied. -/
theorem decode_encode_roundtrip (cx cy w h s0 : ℚ) (srest : List ℚ)
    (nc : Nat) (hnc : 0 < nc) :
    encodeBox (decodeBox (cx :: cy :: w :: h :: s0 :: srest)) = (cx, cy, w, h) ∧
    (∀ b : Box,
      decodeBox [(b.x1 + b.x2) / 2, (b.y1 + b.y2) / 2, b.x2 - b.x1, b.y2 - b.y1] = b) ∧
    rowScore nc (cx :: cy :: w :: h :: s0 :: srest)
      ∈ sliceCols (cx :: cy :: w :: h :: s0 :: srest) 4 nc ∧
    (∀ v ∈ sliceCols (cx :: cy :: w :: h :: s0 :: srest) 4 nc,
      v ≤ rowScore nc (cx :: cy :: w :: h :: s0 :: srest)) := by
  refine ⟨?_, ?_, ?_, ?_⟩
  · simp only [decodeBox, encodeBox, List.getD_cons_zero, List.getD_cons_succ]
    refine Prod.ext ?_ (Prod.ext ?_ (Prod.ext ?_ ?_)) <;> simp <;> ring
  · intro b
    cases b with
    | mk y1 x1 y2 x2 =>
      simp only [decodeBox, List.getD_cons_zero, List.getD_cons_succ, Box.mk.injEq]
      refine ⟨by ring, by ring, by ring, by ring⟩
  · apply listMax_mem
    obtain ⟨m, rfl⟩ := Nat.exists_eq_add_of_lt hnc
    simp [sliceCols]
  · intro v hv
    exact le_listMax _ v hv

/-- Witness for `decode_encode_roundtrip` at a concrete row. -/
theorem decode_encode_roundtrip_witness :
    0 < 2 ∧
    encodeBox (decodeBox [320, 320, 100, 100, (9:ℚ)/10, 1/10]) = (320, 320, 100, 100) :=
  ⟨by decide,
   (decode_encode_roundtrip 320 320 100 100 ((9:ℚ)/10) [1/10] 2 (by decide)).1⟩

/-- C1: boxes, scores, class indices and mask coefficients are all gathered
with the same ordered NMS index list, so position `j` of every gathered
tensor is computed from the same original row `idx[j]` of the transposed
detection tensor: no row permutation across the decode/NMS/gather chain. -/
theorem gather_same_row (tr : List DetRow) (nc sc : Nat) (idx : List Nat)
    (j : Nat) (hj : j < idx.length) (hrow : idx.getD j 0 < tr.length) :
    (gather (boxesOf tr) ⟨0, 0, 0, 0⟩ idx).getD j ⟨0, 0, 0, 0⟩
        = decodeBox (tr.getD (idx.getD j 0) []) ∧
    (gather (scoresOf nc tr) 0 idx).getD j 0
        = rowScore nc (tr.getD (idx.getD j 0) []) ∧
    (gather (classesOf nc tr) 0 idx).getD j 0
        = rowClass nc (tr.getD (idx.getD j 0) []) ∧
    (gather (coefsOf nc sc tr) [] idx).getD j []
        = maskCoefs nc sc (tr.getD (idx.getD j 0) []) := by
  have gj : ∀ {α : Type} (xs : List α) (d : α),
      (gather xs d idx).getD j d = xs.getD (idx.getD j 0) d := by
    intro α xs d
    rw [gather]
    exact getD_map _ idx j d 0 hj
  refine ⟨?_, ?_, ?_, ?_⟩
  · rw [gj, boxesOf]; exact getD_map _ tr _ _ [] hrow
  · rw [gj, scoresOf]; exact getD_map _ tr _ _ [] hrow
  · rw [gj, classesOf]; exact getD_map _ tr _ _ [] hrow
  · rw [gj, coefsOf]; exact getD_map _ tr _ _ [] hrow

/-- Witness for `gather_same_row` on a concrete two-row tensor and the index
list `[1, 0]`. -/
theorem gather_same_row_witness :
    0 < [1, 0].length ∧
    [1, 0].getD 0 0 < ([[1, 2, 3, 4, 5], [6, 7, 8, 9, 10]] : List DetRow).length ∧
    (gather (scoresOf 1 [[1, 2, 3, 4, 5], [6, 7, 8, 9, 10]]) 0 [1, 0]).getD 0 0
      = rowScore 1 (([[1, 2, 3, 4, 5], [6, 7, 8, 9, 10]] : List DetRow).getD
          ([1, 0].getD 0 0) []) :=
  ⟨by decide, by decide,
   (gather_same_row [[1, 2, 3, 4, 5], [6, 7, 8, 9, 10]] 1 0 [1, 0] 0
      (by decide) (by decide)).2.1⟩

/-- C2: `preprocess` pads the frame on the bottom and right only, to a square
of side max(W, H); bilinearly resizes the padded square to the model
resolution it is given (the repository's model input is the square 640×640);
scales pixel values by 1/255; adds a leading batch axis; and returns the
scale factors max(W, H)/W and max(W, H)/H. -/
theorem preprocess_spec (img : Img) (mw mh : Nat) :
    (padToSquare img).height = max img.width img.height ∧
    (padToSquare img).width = max img.width img.height ∧
    (∀ y x c, y < img.height → x < img.width →
        (padToSquare img).pix y x c = img.pix y x c) ∧
    (∀ y x c, img.height ≤ y ∨ img.width ≤ x → (padToSquare img).pix y x c = 0) ∧
    (preprocess img mw mh).1.n = 1 ∧
    (preprocess img mw mh).1.h = mw ∧
    (preprocess img mw mh).1.w = mh ∧
    (preprocess img mw mh).1.c = 3 ∧
    (∀ b y x c, (preprocess img mw mh).1.val b y x c
        = (resizeBilinear (padToSquare img) mw mh).pix y x c / 255) ∧
    (preprocess img mw mh).2.1 = ((max img.width img.height : ℕ) : ℚ) / img.width ∧
    (preprocess img mw mh).2.2 = ((max img.width img.height : ℕ) : ℚ) / img.height := by
  refine ⟨rfl, rfl, ?_, ?_, rfl, rfl, rfl, rfl, fun b y x c => rfl, rfl, rfl⟩
  · intro y x c hy hx
    simp [padToSquare, hy, hx]
  · intro y x c h
    simp only [padToSquare]
    rw [if_neg (by omega)]

/-- Witness for `preprocess_spec` at a concrete 480×640 frame. -/
theorem preprocess_spec_witness :
    0 < 480 ∧ 0 < 640 ∧
    (padToSquare ⟨480, 640, fun _ _ _ => 7⟩).pix 0 0 0
      = (⟨480, 640, fun _ _ _ => 7⟩ : Img).pix 0 0 0 :=
  ⟨by decide, by decide,
   (preprocess_spec ⟨480, 640, fun _ _ _ => 7⟩ 640 640).2.2.1 0 0 0
     (by decide) (by decide)⟩

/-- C4 counterexample: for the detection row (cx, cy, w, h) =
(308, 308, 656, 656) with a 160×160 prototype and a 640×640 model input, the
nominal downsampled box starts at -5 with extent 164; after the clamping, the
slice starts at 0 with height 164, which extends past the prototype bound
160 — the clipped extent does not stay within [0, protoHeight). -/
theorem clip_out_of_bounds_cex :
    downSampleBox (decodeBox [308, 308, 656, 656]) 160 160 640 640
        = (-5, -5, 164, 164) ∧
    clipSlice (-5) (-5) 164 164 160 160 = (0, 0, 164, 164) ∧
    ¬ ((0 : ℤ) + 164 ≤ 160) := by
  refine ⟨?_, by decide, by decide⟩
  have hb : decodeBox [308, 308, 656, 656]
      = { y1 := -20, x1 := -20, y2 := 636, x2 := 636 } := by
    simp only [decodeBox, List.getD_cons_zero, List.getD_cons_succ, Box.mk.injEq]
    norm_num
  rw [hb]
  simp only [downSampleBox, jround, Prod.mk.injEq]
  norm_num

/-- C4 amended: when the downsampled box's start indices already lie within
[0, protoHeight) × [0, protoWidth) and its nominal extents are nonnegative,
the clamped slice has in-range starts, nonnegative sizes, and stays within
the prototype bounds even when the nominal box extends past the far edge.
(As stated, the claim fails when the nominal box starts before 0 with a
large extent, or starts at or past the far edge.) -/
theorem clip_in_bounds (b : Box) (segH segW mh mw : Nat) (dy dx dh dw : ℤ)
    (hd : downSampleBox b segH segW mh mw = (dy, dx, dh, dw))
    (hy0 : 0 ≤ dy) (hy1 : dy < (segH : ℤ)) (hx0 : 0 ≤ dx) (hx1 : dx < (segW : ℤ))
    (hh : 0 ≤ dh) (hw : 0 ≤ dw) (sy sx sh sw : ℤ)
    (hs : clipSlice dy dx dh dw segH segW = (sy, sx, sh, sw)) :
    0 ≤ sy ∧ sy < (segH : ℤ) ∧ 0 ≤ sx ∧ sx < (segW : ℤ) ∧
    0 ≤ sh ∧ 0 ≤ sw ∧ sy + sh ≤ (segH : ℤ) ∧ sx + sw ≤ (segW : ℤ) := by
  simp only [clipSlice, Prod.mk.injEq] at hs
  obtain ⟨e1, e2, e3, e4⟩ := hs
  split_ifs at e1 e2 e3 e4 <;> omega

/-- Witness for `clip_in_bounds` on the spec's end-to-end detection
(320, 320, 100, 100), whose downsampled box is (67, 67, 25, 25). -/
theorem clip_in_bounds_witness :
    downSampleBox (decodeBox [320, 320, 100, 100]) 160 160 640 640
        = (67, 67, 25, 25) ∧
    (0 ≤ (67 : ℤ) ∧ (67 : ℤ) < 160 ∧ 0 ≤ (67 : ℤ) ∧ (67 : ℤ) < 160 ∧
      0 ≤ (25 : ℤ) ∧ 0 ≤ (25 : ℤ) ∧ (67 : ℤ) + 25 ≤ 160 ∧ (67 : ℤ) + 25 ≤ 160) :=
  have hd : downSampleBox (decodeBox [320, 320, 100, 100]) 160 160 640 640
      = (67, 67, 25, 25) := by
    have hb : decodeBox [320, 320, 100, 100]
        = { y1 := 270, x1 := 270, y2 := 370, x2 := 370 } := by
      simp only [decodeBox, List.getD_cons_zero, List.getD_cons_succ, Box.mk.injEq]
      norm_num
    rw [hb]
    simp only [downSampleBox, jround, Prod.mk.injEq]
    norm_num
  ⟨hd,
   clip_in_bounds (decodeBox [320, 320, 100, 100]) 160 160 640 640 67 67 25 25
     hd (by decide) (by decide) (by decide) (by decide) (by decide)
     (by decide) 67 67 25 25 (by decide)⟩

/-- C5 counterexample: the spec's own end-to-end scenario — a 640×480 frame
(scale factors 1 and 4/3 from `preprocess`), a 640×640 model, and a detection
at model-space (320, 320, 100, 100) — produces a record box with
y + h = 360 + 133 = 493 > 480: the stored box does not lie within the source
frame after ratio correction. -/
theorem record_box_cex :
    (preprocess ⟨480, 640, fun _ _ _ => 0⟩ 640 640).2.1 = 1 ∧
    (preprocess ⟨480, 640, fun _ _ _ => 0⟩ 640 640).2.2 = 4 / 3 ∧
    upSampleBox (decodeBox [320, 320, 100, 100]) 1 (4 / 3) = (360, 270, 133, 100) ∧
    ¬ ((360 : ℤ) + 133 ≤ 480) := by
  refine ⟨?_, ?_, ?_, by decide⟩
  · simp only [preprocess]
    norm_num
  · simp only [preprocess]
    norm_num
  · have hb : decodeBox [320, 320, 100, 100]
        = { y1 := 270, x1 := 270, y2 := 370, x2 := 370 } := by
      simp only [decodeBox, List.getD_cons_zero, List.getD_cons_succ, Box.mk.injEq]
      norm_num
    rw [hb]
    simp only [upSampleBox, jround, Prod.mk.injEq]
    norm_num

/-- C5 amended: the record box has nonnegative y and x whenever the decoded
corners are nonnegative, and its far corner is bounded by the ratio-scaled
model resolution (up to the half-pixel rounding): y + h ≤ ⌊mh·ry + 1/2⌋ and
x + w ≤ ⌊mw·rx + 1/2⌋.  It does not in general lie within the source frame
(the spec's own 640×480 scenario gives y + h = 493 > 480). -/
theorem record_box_in_scaled_bounds (b : Box) (mh mw : Nat) (rx ry : ℚ)
    (hrx : 0 < rx) (hry : 0 < ry)
    (hy1 : 0 ≤ b.y1) (hx1 : 0 ≤ b.x1) (hy12 : b.y1 ≤ b.y2) (hx12 : b.x1 ≤ b.x2)
    (hy2 : b.y2 ≤ mh) (hx2 : b.x2 ≤ mw) :
    0 ≤ (upSampleBox b rx ry).1 ∧ 0 ≤ (upSampleBox b rx ry).2.1 ∧
    (upSampleBox b rx ry).1 + (upSampleBox b rx ry).2.2.1
        ≤ ⌊(mh : ℚ) * ry + 1 / 2⌋ ∧
    (upSampleBox b rx ry).2.1 + (upSampleBox b rx ry).2.2.2
        ≤ ⌊(mw : ℚ) * rx + 1 / 2⌋ := by
  unfold upSampleBox jround
  refine ⟨?_, ?_, ?_, ?_⟩
  · exact Int.floor_nonneg.mpr (mul_nonneg hy1 hry.le)
  · exact Int.floor_nonneg.mpr (mul_nonneg hx1 hrx.le)
  · have h1 : (⌊b.y1 * ry⌋ : ℚ) ≤ b.y1 * ry := Int.floor_le _
    have h2 : (⌊(b.y2 - b.y1) * ry + 1 / 2⌋ : ℚ) ≤ (b.y2 - b.y1) * ry + 1 / 2 :=
      Int.floor_le _
    have h3 : b.y2 * ry ≤ (mh : ℚ) * ry := mul_le_mul_of_nonneg_right hy2 hry.le
    have h5 : b.y1 * ry + (b.y2 - b.y1) * ry = b.y2 * ry := by ring
    rw [Int.le_floor]
    push_cast
    linarith
  · have h1 : (⌊b.x1 * rx⌋ : ℚ) ≤ b.x1 * rx := Int.floor_le _
    have h2 : (⌊(b.x2 - b.x1) * rx + 1 / 2⌋ : ℚ) ≤ (b.x2 - b.x1) * rx + 1 / 2 :=
      Int.floor_le _
    have h3 : b.x2 * rx ≤ (mw : ℚ) * rx := mul_le_mul_of_nonneg_right hx2 hrx.le
    have h5 : b.x1 * rx + (b.x2 - b.x1) * rx = b.x2 * rx := by ring
    rw [Int.le_floor]
    push_cast
    linarith

/-- Witness for `record_box_in_scaled_bounds` at the spec's end-to-end
detection on a square 640×640 frame (both scale factors 1). -/
theorem record_box_in_scaled_bounds_witness :
    (0 : ℚ) < 1 ∧
    0 ≤ (upSampleBox ⟨270, 270, 370, 370⟩ 1 1).1 ∧
    0 ≤ (upSampleBox ⟨270, 270, 370, 370⟩ 1 1).2.1 ∧
    (upSampleBox ⟨270, 270, 370, 370⟩ 1 1).1
        + (upSampleBox ⟨270, 270, 370, 370⟩ 1 1).2.2.1
        ≤ ⌊(640 : ℚ) * 1 + 1 / 2⌋ ∧
    (upSampleBox ⟨270, 270, 370, 370⟩ 1 1).2.1
        + (upSampleBox ⟨270, 270, 370, 370⟩ 1 1).2.2.2
        ≤ ⌊(640 : ℚ) * 1 + 1 / 2⌋ :=
  ⟨by norm_num,
   record_box_in_scaled_bounds ⟨270, 270, 370, 370⟩ 640 640 1 1
     (by norm_num) (by norm_num) (by norm_num) (by norm_num) (by norm_num)
     (by norm_num) (by norm_num) (by norm_num)⟩

theorem length_nmsSelect_le_budget (iouThr : ℚ) (b : Nat) (kept l : List Cand) :
    (nmsSelect iouThr b kept l).length ≤ b := by
  induction l generalizing b kept with
  | nil => simp [nmsSelect]
  | cons c rest ih =>
    cases b with
    | zero => simp [nmsSelect]
    | succ b =>
      rw [nmsSelect]
      split_ifs with h
      · simpa using Nat.succ_le_succ (ih b (c :: kept))
      · exact ih (b + 1) kept

theorem nmsSelect_sublist (iouThr : ℚ) (b : Nat) (kept l : List Cand) :
    (nmsSelect iouThr b kept l).Sublist l := by
  induction l generalizing b kept with
  | nil => simp [nmsSelect]
  | cons c rest ih =>
    cases b with
    | zero => simp [nmsSelect]
    | succ b =>
      rw [nmsSelect]
      split_ifs with h
      · exact (ih b (c :: kept)).cons₂ c
      · exact (ih (b + 1) kept).cons c

theorem nmsSelect_compat (iouThr : ℚ) (b : Nat) (kept l : List Cand) :
    ∀ x ∈ nmsSelect iouThr b kept l, ∀ k ∈ kept, iou k.box x.box ≤ iouThr := by
  induction l generalizing b kept with
  | nil => simp [nmsSelect]
  | cons c rest ih =>
    cases b with
    | zero => simp [nmsSelect]
    | succ b =>
      rw [nmsSelect]
      split_ifs with h
      · intro x hx k hk
        rcases List.mem_cons.mp hx with rfl | hx
        · exact h k hk
        · exact ih b (c :: kept) x hx k (List.mem_cons_of_mem c hk)
      · exact ih (b + 1) kept

theorem nmsSelect_pairwise (iouThr : ℚ) (b : Nat) (kept l : List Cand) :
    (nmsSelect iouThr b kept l).Pairwise fun a c => iou a.box c.box ≤ iouThr := by
  induction l generalizing b kept with
  | nil => simp [nmsSelect]
  | cons c rest ih =>
    cases b with
    | zero => simp [nmsSelect]
    | succ b =>
      rw [nmsSelect]
      split_ifs with h
      · refine List.Pairwise.cons ?_ (ih b (c :: kept))
        intro x hx
        exact nmsSelect_compat iouThr b (c :: kept) rest x hx c
          (List.mem_cons_self c kept)
      · exact ih (b + 1) kept

theorem mem_insertDesc (c x : Cand) (l : List Cand) :
    x ∈ insertDesc c l ↔ x = c ∨ x ∈ l := by
  induction l with
  | nil => simp [insertDesc]
  | cons d ds ih =>
    rw [insertDesc]
    split_ifs with h
    · simp [List.mem_cons]
    · simp only [List.mem_cons, ih]
      tauto

theorem mem_sortDesc (x : Cand) (l : List Cand) : x ∈ sortDesc l ↔ x ∈ l := by
  induction l with
  | nil => simp [sortDesc]
  | cons c cs ih =>
    show x ∈ insertDesc c (sortDesc cs) ↔ _
    rw [mem_insertDesc, ih, List.mem_cons]

theorem length_insertDesc (c : Cand) (l : List Cand) :
    (insertDesc c l).length = l.length + 1 := by
  induction l with
  | nil => rfl
  | cons d ds ih =>
    rw [insertDesc]
    split_ifs with h
    · rfl
    · simp [ih]

theorem length_sortDesc (l : List Cand) : (sortDesc l).length = l.length := by
  induction l with
  | nil => rfl
  | cons c cs ih =>
    show (insertDesc c (sortDesc cs)).length = _
    rw [length_insertDesc, ih]
    rfl

theorem mem_candsOf (boxes : List Box) (scores : List ℚ) (c : Cand)
    (hc : c ∈ candsOf boxes scores) :
    c.idx < min boxes.length scores.length ∧
    c.box = boxes.getD c.idx ⟨0, 0, 0, 0⟩ ∧ c.score = scores.getD c.idx 0 := by
  simp only [candsOf, List.mem_map, List.mem_range] at hc
  obtain ⟨i, hi, rfl⟩ := hc
  exact ⟨hi, rfl, rfl⟩

/-- C7: with the pipeline's parameters (maximum 500, IoU threshold 0.45,
score threshold 0.2) the NMS step returns at most 500 indices and no more
than the candidate-row count; every surviving candidate carries its row's
raw score, which is at least 0.2; and any two surviving detections — in
particular a surviving detection and any higher-scoring surviving one —
have IoU at most 0.45. -/
theorem nms_properties (boxes : List Box) (scores : List ℚ) :
    (nonMaxSuppression boxes scores 500 (45 / 100) (2 / 10)).length ≤ 500 ∧
    (nonMaxSuppression boxes scores 500 (45 / 100) (2 / 10)).length
        ≤ min boxes.length scores.length ∧
    (∀ c ∈ nmsCands boxes scores 500 (45 / 100) (2 / 10),
      2 / 10 ≤ c.score ∧ c.score = scores.getD c.idx 0 ∧
      c.box = boxes.getD c.idx ⟨0, 0, 0, 0⟩ ∧
      c.idx < min boxes.length scores.length) ∧
    (nmsCands boxes scores 500 (45 / 100) (2 / 10)).Pairwise
      fun a c => iou a.box c.box ≤ 45 / 100 := by
  have hsub := nmsSelect_sublist (45 / 100) 500 []
    (sortDesc ((candsOf boxes scores).filter fun c => decide ((2:ℚ) / 10 < c.score)))
  refine ⟨?_, ?_, ?_, nmsSelect_pairwise _ _ _ _⟩
  · rw [nonMaxSuppression, List.length_map]
    exact length_nmsSelect_le_budget _ _ _ _
  · rw [nonMaxSuppression, List.length_map]
    calc (nmsCands boxes scores 500 (45 / 100) (2 / 10)).length
        ≤ (sortDesc ((candsOf boxes scores).filter
            fun c => decide ((2:ℚ) / 10 < c.score))).length := hsub.length_le
      _ = ((candsOf boxes scores).filter
            fun c => decide ((2:ℚ) / 10 < c.score)).length := length_sortDesc _
      _ ≤ (candsOf boxes scores).length := List.length_filter_le _ _
      _ = min boxes.length scores.length := by
          rw [candsOf, List.length_map, List.length_range]
  · intro c hc
    have hmem : c ∈ sortDesc ((candsOf boxes scores).filter
        fun c => decide ((2:ℚ) / 10 < c.score)) := hsub.subset hc
    rw [mem_sortDesc, List.mem_filter] at hmem
    obtain ⟨hin, hsc⟩ := hmem
    obtain ⟨h1, h2, h3⟩ := mem_candsOf boxes scores c hin
    have hgt : (2:ℚ) / 10 < c.score := of_decide_eq_true hsc
    exact ⟨le_of_lt hgt, h3, h2, h1⟩

/-- C6 counterexample: in the main pipeline the compositing is a select, not
a clamped addition.  With an existing overlay value 100, a cell whose padded
soft-mask value 0.7 passes the 0.5 threshold, and class-color channel value
50, the code writes 50, while the claimed `clamp(overlay*1 + newMask*1,
0..255)` would give 150. -/
theorem composite_cex :
    compositeMain 100 (7 / 10) 50 = 50 ∧ specClampAdd 100 50 = 150 ∧
    (50 : ℚ) ≠ 150 := by
  refine ⟨?_, ?_, by norm_num⟩
  · have h : ¬ ((7 : ℚ) / 10 < 1 / 2) := by norm_num
    rw [compositeMain, maskCell, overlayWhere, decide_eq_false h]
    rfl
  · rw [specClampAdd]
    rw [min_eq_left (by norm_num), max_eq_right (by norm_num)]
    norm_num

/-- C6 corrected: the main pipeline thresholds the padded soft mask at 0.5 —
cells at or above 0.5 are overwritten with the class RGBA color (alpha 150),
cells below 0.5 keep the previous overlay value — so the composite is a
select/overwrite, not a clamped addition.  The clamped addition
`min(overlay + newMask, 255)` (which equals the spec's clamp on nonnegative
buffers), applied to a white RGBA(255,255,255,150) mask, is the second
variant's behavior. -/
theorem composite_semantics (ov p q rgba a bq : ℚ) (c : Nat)
    (hp : 1 / 2 ≤ p) (hq : q < 1 / 2) (ha : 0 ≤ a) (hb : 0 ≤ bq) :
    compositeMain ov p rgba = rgba ∧
    compositeMain ov q rgba = ov ∧
    maskedCellVar p c = colorRGBA 255 255 255 150 c ∧
    maskedCellVar q c = 0 ∧
    addWeighted a bq 1 1 = min (a + bq) 255 ∧
    specClampAdd a bq = addWeighted a bq 1 1 := by
  have hnp : ¬ (p < 1 / 2) := not_lt.mpr hp
  have hmin : addWeighted a bq 1 1 = min (a + bq) 255 := by
    rw [addWeighted]
    simp only [mul_one]
    rcases le_total (a + bq) 255 with h | h
    · rw [if_pos h, min_eq_left h]
    · rw [min_eq_right h]
      split_ifs with h2
      · exact le_antisymm h2 h
      · rfl
  refine ⟨?_, ?_, ?_, ?_, hmin, ?_⟩
  · rw [compositeMain, maskCell, overlayWhere, decide_eq_false hnp]
    rfl
  · rw [compositeMain, maskCell, overlayWhere, decide_eq_true hq]
    rfl
  · rw [maskedCellVar, if_pos hp]
  · rw [maskedCellVar, if_neg (not_le.mpr hq)]
  · rw [specClampAdd, hmin]
    simp only [mul_one]
    exact max_eq_right (le_min (add_nonneg ha hb) (by norm_num))

/-- Witness for `composite_semantics` at concrete cell values. -/
theorem composite_semantics_witness :
    (1 : ℚ) / 2 ≤ 3 / 4 ∧
    compositeMain 7 (3 / 4) 9 = 9 ∧
    compositeMain 7 (1 / 4) 9 = 7 ∧
    addWeighted 100 200 1 1 = min (100 + 200 : ℚ) 255 :=
  have h := composite_semantics 7 (3 / 4) (1 / 4) 9 100 200 0
    (by norm_num) (by norm_num) (by norm_num) (by norm_num)
  ⟨by norm_num, h.1, h.2.1, h.2.2.2.2.1⟩

/-- C9: when NMS returns no surviving indices, the detection loop runs zero
iterations: the overlay stays the all-zero (fully transparent) buffer and
the Detection list handed to the renderer is empty — the frame completes
without error. -/
theorem empty_nms_blank (cfg : ModelCfg) (proto : Nat → Nat → Nat → ℚ)
    (rx ry : ℚ) (color : Nat → Nat → ℚ) (tr : List DetRow) (nc sc : Nat) :
    detectLoop cfg proto rx ry color (gatheredRows tr nc sc [])
      = (zerosOverlay, []) := rfl

/-- C8: if the stop condition (zero video width and no attached stream)
first holds at tick `i`, the driver runs exactly one detect-and-render cycle
on each of the ticks before `i` — each next tick scheduled only by the
previous cycle's completion callback — then performs exactly one canvas
clear and schedules nothing further. -/
theorem driver_stops (obs : List VideoObs) (i : Nat) (hi : i < obs.length)
    (hbefore : ∀ j, j < i → stopCond (obs.getD j ⟨0, false⟩) = false)
    (hstop : stopCond (obs.getD i ⟨0, false⟩) = true) :
    driverRun obs
      = List.replicate i TickAct.detectCycle ++ [TickAct.clearCanvas] := by
  induction obs generalizing i with
  | nil => simp at hi
  | cons o rest ih =>
    cases i with
    | zero =>
      simp only [List.getD_cons_zero] at hstop
      simp [driverRun, hstop]
    | succ i =>
      have h0 : stopCond o = false := by
        have := hbefore 0 (Nat.succ_pos i)
        simpa using this
      rw [driverRun, if_neg (by simp [h0])]
      rw [ih i (by simpa using hi)
        (fun j hj => by simpa using hbefore (j + 1) (Nat.succ_lt_succ hj))
        (by simpa using hstop)]
      rw [List.replicate_succ, List.cons_append]

/-- Witness for `driver_stops`: one live tick followed by a closed source. -/
theorem driver_stops_witness :
    1 < [(⟨640, true⟩ : VideoObs), ⟨0, false⟩].length ∧
    driverRun [⟨640, true⟩, ⟨0, false⟩]
      = List.replicate 1 TickAct.detectCycle ++ [TickAct.clearCanvas] :=
  ⟨by decide,
   driver_stops [⟨640, true⟩, ⟨0, false⟩] 1 (by decide)
     (fun j hj => by
       have : j = 0 := by omega
       subst this
       decide)
     (by decide)⟩

/-- C10: the two pipeline variants agree extensionally on every stage up to
and including the gather: the same preprocessing tensor and scale factors,
the same decoded corner boxes, the same per-row max scores and argmax
classes, mask coefficients taken from the identical column range
[4 + numClass, 4 + numClass + modelSegChannel) of the transposed detection
tensor, and all tensors gathered by the same NMS index list. -/
theorem variants_agree (img : Img) (mw mh : Nat) (tr : List DetRow)
    (nc sc : Nat) (idx : List Nat) :
    preprocessVar img mw mh = preprocess img mw mh ∧
    tr.map decodeBoxVar = boxesOf tr ∧
    tr.map (rowScoreVar nc) = scoresOf nc tr ∧
    tr.map (rowClassVar nc) = classesOf nc tr ∧
    tr.map (maskCoefsVar nc sc) = coefsOf nc sc tr ∧
    (∀ row : DetRow, maskCoefsVar nc sc row = (row.drop (4 + nc)).take sc) ∧
    (∀ row : DetRow, maskCoefs nc sc row = (row.drop (4 + nc)).take sc) ∧
    gather (tr.map decodeBoxVar) ⟨0, 0, 0, 0⟩ idx
        = gather (boxesOf tr) ⟨0, 0, 0, 0⟩ idx ∧
    gather (tr.map (rowScoreVar nc)) 0 idx = gather (scoresOf nc tr) 0 idx ∧
    gather (tr.map (rowClassVar nc)) 0 idx = gather (classesOf nc tr) 0 idx ∧
    gather (tr.map (maskCoefsVar nc sc)) [] idx
        = gather (coefsOf nc sc tr) [] idx :=
  ⟨rfl, rfl, rfl, rfl, rfl, fun _ => rfl, fun _ => rfl, rfl, rfl, rfl, rfl⟩

end YoloSeg
